import Mathlib

/-! # LIMP — Lightweight Industrial Messaging Protocol: verification development

The repository ships a Conan recipe (`conanfile.py`) for a C++ protocol
library whose implementation sources (`include/*`, `src/*`) are referenced by
the recipe's `exports_sources` but are not part of the supplied tree.  The
protocol core below (wire types, frame codec, incremental decoder) is
therefore modelled from the design document; the Conan recipe itself is
embedded directly from `conanfile.py`.

Modelling conventions: bytes are `Nat` values (with `< 256` range facts kept
as explicit validity hypotheses where they matter), byte buffers are
`List Nat`, machine integers are `Nat` with explicit `% 2 ^ w` arithmetic,
and fallible operations return `Option`/`Except`.  Build-time configuration
choices the design leaves open are fixed as: 16-bit sequence, 16-bit
payload-length field, 16-bit checksum, one-byte sync marker; the checksum is
a 16-bit sum over header + payload (the design leaves the exact CRC
polynomial open; like a CRC, the mod-2^16 sum detects every single-bit
error, which is the property the claims exercise).
-/

namespace LimpSpec

/-- Modelled from the spec: fixed header size in bytes (version, type, flags,
sequence u16, payload_length u16) — the sync marker is not part of the
header proper. -/
def HDR : Nat := 7

/-- Modelled from the spec: checksum width in bytes (16-bit build
configuration). -/
def CKW : Nat := 2

/-- Modelled from the spec: Wire Types write_u8 — one byte, value taken
mod 256. -/
def writeU8 (n : Nat) : List Nat := [n % 256]

/-- Modelled from the spec: Wire Types read_u8. -/
def readU8 : List Nat → Option (Nat × List Nat)
  | b :: r => some (b, r)
  | [] => none

/-- Modelled from the spec: Wire Types write_u16, little-endian. -/
def writeU16 (n : Nat) : List Nat := [n % 256, n / 256 % 256]

/-- Modelled from the spec: Wire Types read_u16, little-endian. -/
def readU16 : List Nat → Option (Nat × List Nat)
  | b0 :: b1 :: r => some (b0 + 256 * b1, r)
  | _ => none

/-- Modelled from the spec: Wire Types write_u32, little-endian (also the
byte layout of an IEEE-754 float32 carried as its bit pattern). -/
def writeU32 (n : Nat) : List Nat :=
  [n % 256, n / 256 % 256, n / 65536 % 256, n / 16777216 % 256]

/-- Modelled from the spec: Wire Types read_u32, little-endian. -/
def readU32 : List Nat → Option (Nat × List Nat)
  | b0 :: b1 :: b2 :: b3 :: r =>
    some (b0 + 256 * b1 + 65536 * b2 + 16777216 * b3, r)
  | _ => none

/-- Modelled from the spec: Wire Types write_u64, little-endian (also the
byte layout of an IEEE-754 float64 carried as its bit pattern). -/
def writeU64 (n : Nat) : List Nat :=
  [n % 256, n / 256 % 256, n / 65536 % 256, n / 16777216 % 256,
   n / 4294967296 % 256, n / 1099511627776 % 256,
   n / 281474976710656 % 256, n / 72057594037927936 % 256]

/-- Modelled from the spec: Wire Types read_u64, little-endian. -/
def readU64 : List Nat → Option (Nat × List Nat)
  | b0 :: b1 :: b2 :: b3 :: b4 :: b5 :: b6 :: b7 :: r =>
    some (b0 + 256 * b1 + 65536 * b2 + 16777216 * b3 + 4294967296 * b4 +
          1099511627776 * b5 + 281474976710656 * b6 +
          72057594037927936 * b7, r)
  | _ => none

/-- Modelled from the spec: LEB128-style varint writer, 7 payload bits per
byte, high bit = continuation, little-endian value order.  The first
argument is recursion fuel; any fuel at least the value itself suffices. -/
def writeVarintF : Nat → Nat → List Nat
  | 0, n => [n % 128]
  | fuel + 1, n => if n < 128 then [n] else (n % 128 + 128) :: writeVarintF fuel (n / 128)

/-- Modelled from the spec: Wire Types write_varint. -/
def writeVarint (n : Nat) : List Nat := writeVarintF n n

/-- Modelled from the spec: Wire Types read_varint (LEB128-style). -/
def readVarint : List Nat → Option (Nat × List Nat)
  | [] => none
  | b :: rest =>
    if b < 128 then some (b, rest)
    else
      match readVarint rest with
      | some (v, r) => some (b - 128 + 128 * v, r)
      | none => none

/-- Modelled from the spec: length-prefixed byte/text field writer (varint
length + raw bytes). -/
def writeBytesField (bs : List Nat) : List Nat := writeVarint bs.length ++ bs

/-- Modelled from the spec: length-prefixed byte/text field reader. -/
def readBytesField (bytes : List Nat) : Option (List Nat × List Nat) :=
  match readVarint bytes with
  | some (n, r) => if n ≤ r.length then some (r.take n, r.drop n) else none
  | none => none

/-- Modelled from the spec: the Frame data model — version, message type,
flags, 16-bit sequence, opaque payload; `payload_length` is implicit as
`payload.length` (the invariant `payload_length == len(payload)` holds by
construction on encode). -/
structure Frame where
  version : Nat
  msgType : Nat
  flags : Nat
  sequence : Nat
  payload : List Nat
deriving DecidableEq

/-- Modelled from the spec: the build-time configuration surface consumed by
the core — maximum frame (payload) size, accepted protocol versions, and the
one-byte sync marker value. -/
structure Config where
  maxFrameSize : Nat
  acceptedVersions : List Nat
  syncMarker : Nat
deriving DecidableEq

/-- Modelled from the spec: serialized header, fields in fixed order
version, type, flags, sequence (LE u16), payload_length (LE u16). -/
def frameHeader (f : Frame) : List Nat :=
  [f.version, f.msgType, f.flags,
   f.sequence % 256, f.sequence / 256 % 256,
   f.payload.length % 256, f.payload.length / 256 % 256]

/-- Modelled from the spec: the 16-bit checksum over header + payload (sum
mod 2^16; the design leaves the CRC polynomial open — see the file
header). -/
def checksum (l : List Nat) : Nat := l.sum % 65536

/-- Modelled from the spec: Frame Codec encode — header, then payload, then
checksum over header + payload.  The sync marker is prepended at the stream
layer by `encodeWire`. -/
def encode (f : Frame) : List Nat :=
  frameHeader f ++ f.payload ++ writeU16 (checksum (frameHeader f ++ f.payload))

/-- Modelled from the spec: a frame as it appears on the wire — sync marker
byte followed by the encoded frame. -/
def encodeWire (cfg : Config) (f : Frame) : List Nat :=
  cfg.syncMarker :: encode f

/-- Modelled from the spec: the error taxonomy of the codec layer
(`TruncatedFrame`, `ChecksumMismatch`, `UnsupportedVersion`); transport-level
kinds are out of the modelled core. -/
inductive ErrKind where
  | TruncatedFrame
  | ChecksumMismatch
  | UnsupportedVersion
deriving DecidableEq

/-- Modelled from the spec: the declared payload_length, read little-endian
from header offsets 5 and 6 of a sync-stripped buffer. -/
def declaredLen (bytes : List Nat) : Nat :=
  bytes.getD 5 0 + 256 * bytes.getD 6 0

/-- Modelled from the spec: the header + payload region a decoder checksums,
as read back from a sync-stripped buffer. -/
def bodyOf (bytes : List Nat) : List Nat :=
  bytes.take HDR ++ (bytes.drop HDR).take (declaredLen bytes)

/-- Modelled from the spec: the stored checksum, read little-endian from the
two bytes following the payload. -/
def storedCk (bytes : List Nat) : Nat :=
  (bytes.drop (HDR + declaredLen bytes)).getD 0 0 +
    256 * (bytes.drop (HDR + declaredLen bytes)).getD 1 0

/-- Modelled from the spec: whether the recomputed checksum equals the
stored one. -/
def checksumOk (bytes : List Nat) : Prop :=
  checksum (bodyOf bytes) = storedCk bytes

instance (bytes : List Nat) : Decidable (checksumOk bytes) := by
  unfold checksumOk; infer_instance

/-- Modelled from the spec: the Frame assembled from a validated
sync-stripped buffer. -/
def parsedFrame (bytes : List Nat) : Frame :=
  { version := bytes.getD 0 0
    msgType := bytes.getD 1 0
    flags := bytes.getD 2 0
    sequence := bytes.getD 3 0 + 256 * bytes.getD 4 0
    payload := (bytes.drop HDR).take (declaredLen bytes) }

/-- Modelled from the spec: Frame Codec decode on a sync-stripped buffer —
parses the header, validates the declared payload_length (plus checksum
width) against the available bytes (`TruncatedFrame` if insufficient),
recomputes the checksum and compares (`ChecksumMismatch` on disagreement),
then returns the assembled Frame.  Version acceptance is enforced one layer
up, by the incremental decoder, which skips an unaccepted frame by its
recorded length. -/
def decode (bytes : List Nat) : Except ErrKind Frame :=
  if bytes.length < HDR + declaredLen bytes + CKW then
    Except.error ErrKind.TruncatedFrame
  else if checksumOk bytes then Except.ok (parsedFrame bytes)
  else Except.error ErrKind.ChecksumMismatch

/-- Modelled from the spec: representability of a Frame under the fixed
16-bit sequence and payload-length widths, with byte-ranged fields. -/
@[reducible] def reprFrame (f : Frame) : Prop :=
  f.version < 256 ∧ f.msgType < 256 ∧ f.flags < 256 ∧
    f.sequence < 65536 ∧ f.payload.length < 65536 ∧ ∀ b ∈ f.payload, b < 256

/-- Modelled from the spec: a valid Frame within the configured size
limits. -/
@[reducible] def validFrame (cfg : Config) (f : Frame) : Prop :=
  reprFrame f ∧ f.payload.length ≤ cfg.maxFrameSize

/-- Modelled from the spec: a TLV field value — varint, fixed32, fixed64
(floats carried as bit patterns), or length-prefixed bytes/text. -/
inductive WVal where
  | vint (n : Nat)
  | f32 (n : Nat)
  | f64 (n : Nat)
  | bytesV (bs : List Nat)
deriving DecidableEq

/-- Modelled from the spec: the wire-type byte of a field value (the design
leaves the numbering to the implementer; the conventional 0/5/1/2 table is
fixed here). -/
def typeByte : WVal → Nat
  | WVal.vint _ => 0
  | WVal.f32 _ => 5
  | WVal.f64 _ => 1
  | WVal.bytesV _ => 2

/-- Modelled from the spec: encoding of one field value. -/
def writeWVal : WVal → List Nat
  | WVal.vint n => writeVarint n
  | WVal.f32 n => writeU32 n
  | WVal.f64 n => writeU64 n
  | WVal.bytesV bs => writeBytesField bs

/-- Modelled from the spec: decoding of one field value, dispatched on the
wire-type byte. -/
def readWVal (tb : Nat) (bytes : List Nat) : Option (WVal × List Nat) :=
  if tb = 0 then
    match readVarint bytes with
    | some (n, r) => some (WVal.vint n, r)
    | none => none
  else if tb = 5 then
    match readU32 bytes with
    | some (n, r) => some (WVal.f32 n, r)
    | none => none
  else if tb = 1 then
    match readU64 bytes with
    | some (n, r) => some (WVal.f64 n, r)
    | none => none
  else if tb = 2 then
    match readBytesField bytes with
    | some (bs, r) => some (WVal.bytesV bs, r)
    | none => none
  else none

/-- Modelled from the spec: encoding of one (tag, value) field — tag varint,
type byte, then the value. -/
def writeField (p : Nat × WVal) : List Nat :=
  writeVarint p.1 ++ typeByte p.2 :: writeWVal p.2

/-- Modelled from the spec: encoding of a flat field collection in
declaration order. -/
def encodeFields (fs : List (Nat × WVal)) : List Nat :=
  (fs.map writeField).flatten

/-- Modelled from the spec: last-write-wins insertion into a tag-to-value
mapping — a later value for a duplicate tag overwrites the earlier one. -/
def insertLww (m : List (Nat × WVal)) (p : Nat × WVal) : List (Nat × WVal) :=
  m.filter (fun q => q.1 != p.1) ++ [p]

/-- Modelled from the spec: the mapping built by inserting (tag, value)
pairs directly in declaration order with last-write-wins. -/
def buildMap (fs : List (Nat × WVal)) : List (Nat × WVal) :=
  fs.foldl insertLww []

/-- Modelled from the spec: the field-collection decoder loop — reads tag
varint, type byte and value, folding each pair into the tag-to-value mapping
with last-write-wins; fuel is at least the buffer length. -/
def decodeFieldsF : Nat → List Nat → List (Nat × WVal) → Option (List (Nat × WVal))
  | _, [], acc => some acc
  | 0, _ :: _, _ => none
  | fuel + 1, b :: rest, acc =>
    match readVarint (b :: rest) with
    | none => none
    | some (tag, r1) =>
      match r1 with
      | [] => none
      | tb :: r2 =>
        match readWVal tb r2 with
        | none => none
        | some (v, r3) => decodeFieldsF fuel r3 (insertLww acc (tag, v))

/-- Modelled from the spec: field-collection decode, building the
tag-to-value mapping. -/
def decodeFields (bytes : List Nat) : Option (List (Nat × WVal)) :=
  decodeFieldsF bytes.length bytes []

/-- Modelled from the spec: representability of a field value under the
fixed widths. -/
@[reducible] def validWVal : WVal → Prop
  | WVal.vint _ => True
  | WVal.f32 n => n < 4294967296
  | WVal.f64 n => n < 18446744073709551616
  | WVal.bytesV _ => True

instance : (v : WVal) → Decidable (validWVal v)
  | WVal.vint _ => isTrue trivial
  | WVal.f32 n => inferInstanceAs (Decidable (n < 4294967296))
  | WVal.f64 n => inferInstanceAs (Decidable (n < 18446744073709551616))
  | WVal.bytesV _ => isTrue trivial

/-- Modelled from the spec: representability of a flat field collection. -/
@[reducible] def validFields (fs : List (Nat × WVal)) : Prop :=
  ∀ p ∈ fs, validWVal p.2

/-- Modelled from the spec: the decode events the incremental decoder
surfaces to the caller, in arrival order — completed Frames or decode
errors. -/
inductive Event where
  | frame (f : Frame)
  | error (k : ErrKind)
deriving DecidableEq

/-- Modelled from the spec: the incremental decoder's processing loop over
its accumulation buffer.  SEEKING_SYNC drops bytes before the sync marker;
READING_HEADER waits until the fixed header is available and rejects an
over-limit declared payload_length (ERROR_RESYNC: the header bytes of the
failed attempt are discarded and the marker scan resumes at the next
unconsumed byte); READING_PAYLOAD / READING_CHECKSUM wait until the declared
length plus checksum is available, then Frame Codec validation either emits
the Frame, emits `UnsupportedVersion` for an unaccepted version (the frame
is skipped by its recorded length), or emits `ChecksumMismatch` and resyncs.
The fuel argument is at least the buffer length; each step consumes at least
one byte. -/
def processBuf (cfg : Config) : Nat → List Nat → List Event × List Nat
  | _, [] => ([], [])
  | 0, b :: rest => ([], b :: rest)
  | fuel + 1, b :: rest =>
    if b = cfg.syncMarker then
      if rest.length < HDR then ([], b :: rest)
      else if cfg.maxFrameSize < declaredLen rest then
        let r := processBuf cfg fuel (rest.drop HDR)
        (Event.error ErrKind.TruncatedFrame :: r.1, r.2)
      else
        match decode rest with
        | Except.error ErrKind.TruncatedFrame => ([], b :: rest)
        | Except.error e =>
          let r := processBuf cfg fuel (rest.drop (HDR + declaredLen rest + CKW))
          (Event.error e :: r.1, r.2)
        | Except.ok f =>
          let r := processBuf cfg fuel (rest.drop (HDR + declaredLen rest + CKW))
          if f.version ∈ cfg.acceptedVersions then (Event.frame f :: r.1, r.2)
          else (Event.error ErrKind.UnsupportedVersion :: r.1, r.2)
    else processBuf cfg fuel rest

/-- Modelled from the spec: run the incremental decoder to quiescence on a
buffer — the pure function (state, new bytes) → (events, new state). -/
def run (cfg : Config) (buf : List Nat) : List Event × List Nat :=
  processBuf cfg buf.length buf

/-- Modelled from the spec: feed one chunk to the decoder — append to the
accumulation buffer and process. -/
def feed (cfg : Config) (st : List Nat) (chunk : List Nat) : List Event × List Nat :=
  run cfg (st ++ chunk)

/-- Modelled from the spec: feed a sequence of chunks from a given decoder
state, concatenating the surfaced events in order. -/
def feedList (cfg : Config) (st : List Nat) : List (List Nat) → List Event × List Nat
  | [] => ([], st)
  | c :: cs =>
    let r := feed cfg st c
    let r2 := feedList cfg r.2 cs
    (r.1 ++ r2.1, r2.2)

/-- Modelled from the spec: flip bit `k` of the byte at offset `i`. -/
def flipBit (l : List Nat) (i k : Nat) : List Nat :=
  l.set i (l.getD i 0 ^^^ 2 ^ k)

/-- A concrete build configuration used by witnesses: 64-byte maximum frame
size, protocol version 1 accepted, sync marker 0xAA. -/
def cfg0 : Config := { maxFrameSize := 64, acceptedVersions := [1], syncMarker := 170 }

/-- A concrete valid frame (the design's test scenario: version 1, type 5,
flags 0, sequence 42, payload 01 02 03). -/
def fA : Frame :=
  { version := 1, msgType := 5, flags := 0, sequence := 42, payload := [1, 2, 3] }

/-- A second concrete valid frame, fed after a corrupted one in recovery
scenarios. -/
def fB : Frame :=
  { version := 1, msgType := 6, flags := 0, sequence := 43, payload := [7, 8, 9] }

/-- A concrete frame whose version is not accepted by `cfg0`. -/
def fV : Frame :=
  { version := 2, msgType := 5, flags := 0, sequence := 44, payload := [4, 5] }

/-- The target OS values the recipe's `settings.os` ranges over
(`conanfile.py` only ever compares against Windows). -/
inductive OS where
  | Windows
  | Linux
  | Macos
  | FreeBSD
deriving DecidableEq

/-- The option set of the `limp` Conan package (`conanfile.py` lines 15-19):
`shared`, `fPIC`, `with_zmq`; `fPIC = none` models the option having been
deleted from the set. -/
structure LimpOptions where
  shared : Bool
  fPIC : Option Bool
  with_zmq : Bool
deriving DecidableEq

/-- The recipe's `default_options` (`conanfile.py` lines 20-24): shared
False, fPIC True, with_zmq True. -/
def default_options : LimpOptions :=
  { shared := false, fPIC := some true, with_zmq := true }

/-- `LimpConan.config_options` (`conanfile.py` lines 27-29): on Windows the
`fPIC` option is deleted; otherwise the options are untouched. -/
def config_options (os : OS) (o : LimpOptions) : LimpOptions :=
  if os = OS.Windows then { o with fPIC := none } else o

/-- `LimpConan.requirements` (`conanfile.py` lines 31-34): requires
zeromq/4.3.5 and cppzmq/4.10.0 exactly when `with_zmq` is set. -/
def requirements (o : LimpOptions) : List String :=
  if o.with_zmq then ["zeromq/4.3.5", "cppzmq/4.10.0"] else []

/-- The CMake toolchain variables `LimpConan.generate` writes
(`conanfile.py` lines 39-44). -/
structure CMakeToolchainVars where
  LIMP_BUILD_ZMQ : Bool
  LIMP_BUILD_EXAMPLES : Bool
  LIMP_BUILD_TESTS : Bool
deriving DecidableEq

/-- `LimpConan.generate` (`conanfile.py` lines 39-44): LIMP_BUILD_ZMQ is the
`with_zmq` option, LIMP_BUILD_EXAMPLES and LIMP_BUILD_TESTS are always
False. -/
def generate (o : LimpOptions) : CMakeToolchainVars :=
  { LIMP_BUILD_ZMQ := o.with_zmq, LIMP_BUILD_EXAMPLES := false,
    LIMP_BUILD_TESTS := false }

/-! ## Supporting lemmas: lists and primitive codecs -/

theorem sum_set_getD :
    ∀ (l : List Nat) (j v : Nat), j < l.length →
      (l.set j v).sum + l.getD j 0 = l.sum + v
  | a :: l, 0, v, _ => by simp [List.sum_cons]; omega
  | a :: l, j + 1, v, h => by
    have ih := sum_set_getD l j v (by simp at h; omega)
    simp only [List.set_cons_succ, List.sum_cons, List.getD_cons_succ]
    omega

theorem getD_mem_of_lt (l : List Nat) (j : Nat) (h : j < l.length) :
    l.getD j 0 ∈ l := by
  rw [List.getD_eq_getElem?_getD, List.getElem?_eq_getElem h]
  simp only [Option.getD_some]
  exact List.getElem_mem h

theorem getD_set_ne (l : List Nat) (i j v : Nat) (h : i ≠ j) :
    (l.set i v).getD j 0 = l.getD j 0 := by
  rw [List.getD_eq_getElem?_getD, List.getD_eq_getElem?_getD,
    List.getElem?_set_ne h]

theorem readU8_writeU8 (n : Nat) (r : List Nat) (h : n < 256) :
    readU8 (writeU8 n ++ r) = some (n, r) := by
  simp [readU8, writeU8, Nat.mod_eq_of_lt h]

theorem readU16_writeU16 (n : Nat) (r : List Nat) (h : n < 65536) :
    readU16 (writeU16 n ++ r) = some (n, r) := by
  simp only [writeU16, readU16, List.cons_append, List.nil_append,
    Option.some.injEq, Prod.mk.injEq]
  exact ⟨by omega, trivial⟩

theorem readU32_writeU32 (n : Nat) (r : List Nat) (h : n < 4294967296) :
    readU32 (writeU32 n ++ r) = some (n, r) := by
  simp only [writeU32, readU32, List.cons_append, List.nil_append,
    Option.some.injEq, Prod.mk.injEq]
  exact ⟨by omega, trivial⟩

theorem readU64_writeU64 (n : Nat) (r : List Nat) (h : n < 18446744073709551616) :
    readU64 (writeU64 n ++ r) = some (n, r) := by
  simp only [writeU64, readU64, List.cons_append, List.nil_append,
    Option.some.injEq, Prod.mk.injEq]
  exact ⟨by omega, trivial⟩

theorem readVarint_writeVarintF :
    ∀ (fuel n : Nat) (r : List Nat), n ≤ fuel →
      readVarint (writeVarintF fuel n ++ r) = some (n, r)
  | 0, n, r, h => by
    have h0 : n = 0 := Nat.le_zero.mp h
    subst h0
    simp [writeVarintF, readVarint]
  | fuel + 1, n, r, h => by
    by_cases hn : n < 128
    · simp [writeVarintF, hn, readVarint]
    · have hfuel : n / 128 ≤ fuel := by omega
      have hrec := readVarint_writeVarintF fuel (n / 128) r hfuel
      have hbig : ¬(n % 128 + 128 < 128) := by omega
      simp only [writeVarintF, if_neg hn, List.cons_append, readVarint,
        if_neg hbig, hrec]
      simp only [Option.some.injEq, Prod.mk.injEq]
      exact ⟨by omega, trivial⟩

theorem readVarint_writeVarint (n : Nat) (r : List Nat) :
    readVarint (writeVarint n ++ r) = some (n, r) :=
  readVarint_writeVarintF n n r le_rfl

theorem readBytesField_writeBytesField (bs r : List Nat) :
    readBytesField (writeBytesField bs ++ r) = some (bs, r) := by
  simp only [writeBytesField, List.append_assoc, readBytesField,
    readVarint_writeVarint]
  rw [if_pos (by simp)]
  rw [List.take_left' rfl, List.drop_left' rfl]

/-! ## Supporting lemmas: the frame codec -/

theorem decode_generic (v t fl s0 s1 l0 l1 : Nat) (pl rest : List Nat)
    (hL : l0 + 256 * l1 = pl.length) :
    decode (([v, t, fl, s0, s1, l0, l1] : List Nat) ++
        (pl ++ (writeU16 (checksum ([v, t, fl, s0, s1, l0, l1] ++ pl)) ++ rest))) =
      Except.ok { version := v, msgType := t, flags := fl,
                  sequence := s0 + 256 * s1, payload := pl } := by
  set H : List Nat := [v, t, fl, s0, s1, l0, l1] with hH
  set ck := checksum (H ++ pl) with hck
  have hck65536 : ck < 65536 := Nat.mod_lt _ (by norm_num)
  set B := H ++ (pl ++ (writeU16 ck ++ rest)) with hB
  have hHlen : H.length = HDR := by simp [hH, HDR]
  have hdl : declaredLen B = pl.length := by
    simp only [hB, declaredLen]
    rw [List.getD_append _ _ _ 5 (by simp [hH]),
      List.getD_append _ _ _ 6 (by simp [hH])]
    simp [hH]
    omega
  have hBlen : B.length = HDR + pl.length + CKW + rest.length := by
    simp [hB, hH, writeU16, HDR, CKW]
    omega
  have hnotlt : ¬ (B.length < HDR + declaredLen B + CKW) := by
    rw [hdl, hBlen]; omega
  have hdroph : B.drop HDR = pl ++ (writeU16 ck ++ rest) := by
    rw [hB]; exact List.drop_left' hHlen
  have htakeh : B.take HDR = H := by
    rw [hB]; exact List.take_left' hHlen
  have hpay : (B.drop HDR).take (declaredLen B) = pl := by
    rw [hdroph, hdl]; exact List.take_left' rfl
  have hbody : bodyOf B = H ++ pl := by
    rw [bodyOf, htakeh, hpay]
  have hdrop2 : B.drop (HDR + declaredLen B) = writeU16 ck ++ rest := by
    rw [hdl]
    have hsplit : B = (H ++ pl) ++ (writeU16 ck ++ rest) := by
      rw [hB, List.append_assoc]
    rw [hsplit]
    exact List.drop_left' (by simp [hHlen, HDR])
  have hstored : storedCk B = ck := by
    rw [storedCk, hdrop2]
    simp [writeU16]
    omega
  have hok : checksumOk B := by
    rw [checksumOk, hbody, hstored]
  have h0 : B.getD 0 0 = v := by
    rw [hB, List.getD_append _ _ _ 0 (by simp [hH])]; simp [hH]
  have h1 : B.getD 1 0 = t := by
    rw [hB, List.getD_append _ _ _ 1 (by simp [hH])]; simp [hH]
  have h2 : B.getD 2 0 = fl := by
    rw [hB, List.getD_append _ _ _ 2 (by simp [hH])]; simp [hH]
  have h3 : B.getD 3 0 = s0 := by
    rw [hB, List.getD_append _ _ _ 3 (by simp [hH])]; simp [hH]
  have h4 : B.getD 4 0 = s1 := by
    rw [hB, List.getD_append _ _ _ 4 (by simp [hH])]; simp [hH]
  unfold decode
  rw [if_neg hnotlt, if_pos hok]
  unfold parsedFrame
  rw [h0, h1, h2, h3, h4, hpay]

theorem encode_append_eq (f : Frame) (rest : List Nat) :
    encode f ++ rest =
      ([f.version, f.msgType, f.flags, f.sequence % 256, f.sequence / 256 % 256,
        f.payload.length % 256, f.payload.length / 256 % 256] : List Nat) ++
        (f.payload ++
          (writeU16 (checksum ([f.version, f.msgType, f.flags, f.sequence % 256,
            f.sequence / 256 % 256, f.payload.length % 256,
            f.payload.length / 256 % 256] ++ f.payload)) ++ rest)) := by
  simp [encode, frameHeader, List.append_assoc]

theorem decode_encode_append (f : Frame) (rest : List Nat)
    (hs : f.sequence < 65536) (hl : f.payload.length < 65536) :
    decode (encode f ++ rest) = Except.ok f := by
  rw [encode_append_eq,
    decode_generic _ _ _ _ _ _ _ _ _ (by omega)]
  have : f.sequence % 256 + 256 * (f.sequence / 256 % 256) = f.sequence := by omega
  rw [this]

theorem decode_eq_truncated_iff (bytes : List Nat) :
    decode bytes = Except.error ErrKind.TruncatedFrame ↔
      bytes.length < HDR + declaredLen bytes + CKW := by
  unfold decode
  by_cases h1 : bytes.length < HDR + declaredLen bytes + CKW
  · simp [h1]
  · rw [if_neg h1]
    by_cases h2 : checksumOk bytes
    · simp [h1, h2]
    · simp [h1, h2]

theorem decode_eq_mismatch_iff (bytes : List Nat) :
    decode bytes = Except.error ErrKind.ChecksumMismatch ↔
      (HDR + declaredLen bytes + CKW ≤ bytes.length ∧ ¬ checksumOk bytes) := by
  unfold decode
  by_cases h1 : bytes.length < HDR + declaredLen bytes + CKW
  · rw [if_pos h1]
    simp only [iff_iff_implies_and_implies]
    constructor
    · intro hx; exact absurd hx (by simp)
    · intro hx; omega
  · rw [if_neg h1]
    by_cases h2 : checksumOk bytes
    · rw [if_pos h2]
      simp [h2]
    · rw [if_neg h2]
      simp [h2]
      omega

theorem decode_eq_ok_iff (bytes : List Nat) (f : Frame) :
    decode bytes = Except.ok f ↔
      (HDR + declaredLen bytes + CKW ≤ bytes.length ∧ checksumOk bytes ∧
        f = parsedFrame bytes) := by
  unfold decode
  by_cases h1 : bytes.length < HDR + declaredLen bytes + CKW
  · rw [if_pos h1]
    simp only [iff_iff_implies_and_implies]
    constructor
    · intro hx; exact absurd hx (by simp)
    · intro hx; omega
  · rw [if_neg h1]
    by_cases h2 : checksumOk bytes
    · rw [if_pos h2]
      simp [h2, eq_comm]
      omega
    · rw [if_neg h2]
      simp [h2]

theorem declaredLen_append_left (c d : List Nat) (h : 7 ≤ c.length) :
    declaredLen (c ++ d) = declaredLen c := by
  unfold declaredLen
  rw [List.getD_append _ _ _ 5 (by omega), List.getD_append _ _ _ 6 (by omega)]

theorem decode_append_left (c d : List Nat)
    (h : HDR + declaredLen c + CKW ≤ c.length) :
    decode (c ++ d) = decode c := by
  have h7 : 7 ≤ c.length := by
    have : HDR = 7 := rfl
    omega
  have hdl : declaredLen (c ++ d) = declaredLen c := declaredLen_append_left c d h7
  have hHDR : HDR = 7 := rfl
  have hCKW : CKW = 2 := rfl
  have htake : (c ++ d).take HDR = c.take HDR :=
    List.take_append_of_le_length (by omega)
  have hdroph : (c ++ d).drop HDR = c.drop HDR ++ d :=
    List.drop_append_of_le_length (by omega)
  have hlendrop : (c.drop HDR).length = c.length - HDR := by simp
  have hpay : ((c ++ d).drop HDR).take (declaredLen (c ++ d)) =
      (c.drop HDR).take (declaredLen c) := by
    rw [hdroph, hdl]
    exact List.take_append_of_le_length (by omega)
  have hbody : bodyOf (c ++ d) = bodyOf c := by
    unfold bodyOf
    rw [htake, hpay]
  have hdrop2 : (c ++ d).drop (HDR + declaredLen (c ++ d)) =
      c.drop (HDR + declaredLen c) ++ d := by
    rw [hdl]
    exact List.drop_append_of_le_length (by omega)
  have hlendrop2 : (c.drop (HDR + declaredLen c)).length =
      c.length - (HDR + declaredLen c) := by simp
  have hstored : storedCk (c ++ d) = storedCk c := by
    unfold storedCk
    rw [hdrop2]
    rw [List.getD_append _ _ _ 0 (by omega), List.getD_append _ _ _ 1 (by omega)]
  have hcksum : checksumOk (c ++ d) ↔ checksumOk c := by
    unfold checksumOk
    rw [hbody, hstored]
  have hparsed : parsedFrame (c ++ d) = parsedFrame c := by
    unfold parsedFrame
    rw [hpay, List.getD_append _ _ _ 0 (by omega), List.getD_append _ _ _ 1 (by omega),
      List.getD_append _ _ _ 2 (by omega), List.getD_append _ _ _ 3 (by omega),
      List.getD_append _ _ _ 4 (by omega)]
  have hlen1 : ¬ ((c ++ d).length < HDR + declaredLen (c ++ d) + CKW) := by
    rw [hdl]
    simp only [List.length_append]
    omega
  have hlen2 : ¬ (c.length < HDR + declaredLen c + CKW) := by omega
  unfold decode
  rw [if_neg hlen1, if_neg hlen2, hparsed]
  by_cases hc : checksumOk c
  · rw [if_pos (hcksum.mpr hc), if_pos hc]
  · rw [if_neg (fun hx => hc (hcksum.mp hx)), if_neg hc]

/-! ## Supporting lemmas: the incremental decoder's processing loop -/

theorem processBuf_congr (cfg : Config) :
    ∀ (f1 f2 : Nat) (buf : List Nat), buf.length ≤ f1 → buf.length ≤ f2 →
      processBuf cfg f1 buf = processBuf cfg f2 buf := by
  intro f1
  induction f1 with
  | zero =>
    intro f2 buf h1 h2
    have hb : buf = [] := List.eq_nil_of_length_eq_zero (Nat.le_zero.mp h1)
    subst hb
    cases f2 <;> rfl
  | succ f1 ih =>
    intro f2 buf h1 h2
    match buf, f2 with
    | [], f2 => cases f2 <;> rfl
    | b :: rest, 0 => simp at h2
    | b :: rest, f2 + 1 =>
      have hr1 : rest.length ≤ f1 := by simp at h1; omega
      have hr2 : rest.length ≤ f2 := by simp at h2; omega
      show processBuf cfg (f1 + 1) (b :: rest) = processBuf cfg (f2 + 1) (b :: rest)
      simp only [processBuf]
      by_cases hb : b = cfg.syncMarker
      · simp only [if_pos hb]
        by_cases h7 : rest.length < HDR
        · simp only [if_pos h7]
        · simp only [if_neg h7]
          by_cases hmax : cfg.maxFrameSize < declaredLen rest
          · simp only [if_pos hmax]
            rw [ih f2 (rest.drop HDR) (by simp; omega) (by simp; omega)]
          · simp only [if_neg hmax]
            cases hd : decode rest with
            | error e =>
              cases e with
              | TruncatedFrame => simp only [hd]
              | ChecksumMismatch =>
                simp only [hd]
                rw [ih f2 (rest.drop (HDR + declaredLen rest + CKW))
                  (by simp; omega) (by simp; omega)]
              | UnsupportedVersion =>
                simp only [hd]
                rw [ih f2 (rest.drop (HDR + declaredLen rest + CKW))
                  (by simp; omega) (by simp; omega)]
            | ok f =>
              simp only [hd]
              rw [ih f2 (rest.drop (HDR + declaredLen rest + CKW))
                (by simp; omega) (by simp; omega)]
      · simp only [if_neg hb]
        exact ih f2 rest hr1 hr2

theorem run_nil (cfg : Config) : run cfg [] = ([], []) := rfl

theorem processBuf_eq_run (cfg : Config) (fuel : Nat) (buf : List Nat)
    (h : buf.length ≤ fuel) : processBuf cfg fuel buf = run cfg buf :=
  processBuf_congr cfg fuel buf.length buf h le_rfl

theorem run_cons_ne (cfg : Config) (b : Nat) (rest : List Nat)
    (hb : b ≠ cfg.syncMarker) : run cfg (b :: rest) = run cfg rest := by
  show processBuf cfg (rest.length + 1) (b :: rest) = _
  simp only [processBuf, if_neg hb]
  rfl

theorem run_wait_header (cfg : Config) (b : Nat) (rest : List Nat)
    (hb : b = cfg.syncMarker) (h7 : rest.length < HDR) :
    run cfg (b :: rest) = ([], b :: rest) := by
  show processBuf cfg (rest.length + 1) (b :: rest) = _
  simp only [processBuf, if_pos hb, if_pos h7]

theorem run_over_limit (cfg : Config) (b : Nat) (rest : List Nat)
    (hb : b = cfg.syncMarker) (h7 : ¬ rest.length < HDR)
    (hmax : cfg.maxFrameSize < declaredLen rest) :
    run cfg (b :: rest) =
      (Event.error ErrKind.TruncatedFrame :: (run cfg (rest.drop HDR)).1,
        (run cfg (rest.drop HDR)).2) := by
  show processBuf cfg (rest.length + 1) (b :: rest) = _
  simp only [processBuf, if_pos hb, if_neg h7, if_pos hmax]
  rw [processBuf_eq_run cfg rest.length (rest.drop HDR) (by simp)]

theorem run_wait_body (cfg : Config) (b : Nat) (rest : List Nat)
    (hb : b = cfg.syncMarker) (h7 : ¬ rest.length < HDR)
    (hmax : ¬ cfg.maxFrameSize < declaredLen rest)
    (hd : decode rest = Except.error ErrKind.TruncatedFrame) :
    run cfg (b :: rest) = ([], b :: rest) := by
  show processBuf cfg (rest.length + 1) (b :: rest) = _
  simp only [processBuf, if_pos hb, if_neg h7, if_neg hmax, hd]

theorem run_err (cfg : Config) (b : Nat) (rest : List Nat) (e : ErrKind)
    (hb : b = cfg.syncMarker) (h7 : ¬ rest.length < HDR)
    (hmax : ¬ cfg.maxFrameSize < declaredLen rest)
    (hd : decode rest = Except.error e) (hne : e ≠ ErrKind.TruncatedFrame) :
    run cfg (b :: rest) =
      (Event.error e :: (run cfg (rest.drop (HDR + declaredLen rest + CKW))).1,
        (run cfg (rest.drop (HDR + declaredLen rest + CKW))).2) := by
  show processBuf cfg (rest.length + 1) (b :: rest) = _
  cases e with
  | TruncatedFrame => exact absurd rfl hne
  | ChecksumMismatch =>
    simp only [processBuf, if_pos hb, if_neg h7, if_neg hmax, hd]
    rw [processBuf_eq_run cfg rest.length _ (by simp)]
  | UnsupportedVersion =>
    simp only [processBuf, if_pos hb, if_neg h7, if_neg hmax, hd]
    rw [processBuf_eq_run cfg rest.length _ (by simp)]

theorem run_ok (cfg : Config) (b : Nat) (rest : List Nat) (f : Frame)
    (hb : b = cfg.syncMarker) (h7 : ¬ rest.length < HDR)
    (hmax : ¬ cfg.maxFrameSize < declaredLen rest)
    (hd : decode rest = Except.ok f) :
    run cfg (b :: rest) =
      ((if f.version ∈ cfg.acceptedVersions then Event.frame f
        else Event.error ErrKind.UnsupportedVersion) ::
          (run cfg (rest.drop (HDR + declaredLen rest + CKW))).1,
        (run cfg (rest.drop (HDR + declaredLen rest + CKW))).2) := by
  show processBuf cfg (rest.length + 1) (b :: rest) = _
  simp only [processBuf, if_pos hb, if_neg h7, if_neg hmax, hd]
  rw [processBuf_eq_run cfg rest.length _ (by simp)]
  by_cases hv : f.version ∈ cfg.acceptedVersions
  · simp only [if_pos hv]
  · simp only [if_neg hv]

theorem encode_length (f : Frame) :
    (encode f).length = HDR + f.payload.length + CKW := by
  simp [encode, frameHeader, writeU16, HDR, CKW]
  omega

theorem declaredLen_encode_append (f : Frame) (rest : List Nat)
    (hl : f.payload.length < 65536) :
    declaredLen (encode f ++ rest) = f.payload.length := by
  rw [encode_append_eq]
  unfold declaredLen
  rw [List.getD_append _ _ _ 5 (by simp), List.getD_append _ _ _ 6 (by simp)]
  simp
  omega

theorem run_wire_frame (cfg : Config) (f : Frame) (rest : List Nat)
    (hf : validFrame cfg f) :
    run cfg (encodeWire cfg f ++ rest) =
      ((if f.version ∈ cfg.acceptedVersions then Event.frame f
        else Event.error ErrKind.UnsupportedVersion) :: (run cfg rest).1,
        (run cfg rest).2) := by
  obtain ⟨⟨hv, ht, hfl, hs, hl, hb256⟩, hmaxf⟩ := hf
  have hE : encodeWire cfg f ++ rest = cfg.syncMarker :: (encode f ++ rest) := by
    simp [encodeWire]
  rw [hE]
  have hdl : declaredLen (encode f ++ rest) = f.payload.length :=
    declaredLen_encode_append f rest hl
  have hlen : (encode f ++ rest).length =
      HDR + f.payload.length + CKW + rest.length := by
    rw [List.length_append, encode_length]
  have hHDR : HDR = 7 := rfl
  have hCKW : CKW = 2 := rfl
  have h7 : ¬ (encode f ++ rest).length < HDR := by rw [hlen]; omega
  have hmax' : ¬ cfg.maxFrameSize < declaredLen (encode f ++ rest) := by
    rw [hdl]; omega
  have hd : decode (encode f ++ rest) = Except.ok f :=
    decode_encode_append f rest hs hl
  rw [run_ok cfg _ _ f rfl h7 hmax' hd]
  have hdropk : (encode f ++ rest).drop
      (HDR + declaredLen (encode f ++ rest) + CKW) = rest := by
    rw [hdl]
    have hfin : (encode f).length = HDR + f.payload.length + CKW := encode_length f
    calc (encode f ++ rest).drop (HDR + f.payload.length + CKW)
        = (encode f ++ rest).drop (encode f).length := by rw [hfin]
      _ = rest := List.drop_left (encode f) rest
  rw [hdropk]

theorem run_append (cfg : Config) :
    ∀ (n : Nat) (a b : List Nat), a.length ≤ n →
      run cfg (a ++ b) =
        ((run cfg a).1 ++ (run cfg ((run cfg a).2 ++ b)).1,
          (run cfg ((run cfg a).2 ++ b)).2) := by
  intro n
  induction n with
  | zero =>
    intro a b h
    have ha : a = [] := List.eq_nil_of_length_eq_zero (Nat.le_zero.mp h)
    subst ha
    simp [run_nil]
  | succ n ih =>
    intro a b h
    cases a with
    | nil => simp [run_nil]
    | cons x a' =>
      have ha' : a'.length ≤ n := by simp at h; omega
      have hcons : (x :: a') ++ b = x :: (a' ++ b) := rfl
      by_cases hx : x = cfg.syncMarker
      · have hHDR : HDR = 7 := rfl
        have hCKW : CKW = 2 := rfl
        by_cases h7 : a'.length < HDR
        · have hwait : run cfg (x :: a') = ([], x :: a') :=
            run_wait_header cfg x a' hx h7
          rw [hwait]
          simp
        · have h7' : ¬ (a' ++ b).length < HDR := by
            simp only [List.length_append]; omega
          have hdl : declaredLen (a' ++ b) = declaredLen a' :=
            declaredLen_append_left a' b (by omega)
          by_cases hmax : cfg.maxFrameSize < declaredLen a'
          · have hdropeq : (a' ++ b).drop HDR = a'.drop HDR ++ b :=
              List.drop_append_of_le_length (by omega)
            rw [hcons,
              run_over_limit cfg x (a' ++ b) hx h7' (by rw [hdl]; exact hmax),
              hdropeq,
              run_over_limit cfg x a' hx h7 hmax,
              ih (a'.drop HDR) b (by simp; omega)]
            simp
          · by_cases hcomp : a'.length < HDR + declaredLen a' + CKW
            · have hdTF : decode a' = Except.error ErrKind.TruncatedFrame :=
                (decode_eq_truncated_iff a').mpr hcomp
              have hwait : run cfg (x :: a') = ([], x :: a') :=
                run_wait_body cfg x a' hx h7 hmax hdTF
              rw [hwait]
              simp
            · have hdeq : decode (a' ++ b) = decode a' :=
                decode_append_left a' b (by omega)
              have hdropk : (a' ++ b).drop (HDR + declaredLen (a' ++ b) + CKW) =
                  a'.drop (HDR + declaredLen a' + CKW) ++ b := by
                rw [hdl]
                exact List.drop_append_of_le_length (by omega)
              cases hd : decode a' with
              | error e =>
                have hne : e ≠ ErrKind.TruncatedFrame := by
                  intro he
                  subst he
                  exact hcomp ((decode_eq_truncated_iff a').mp hd)
                rw [hcons,
                  run_err cfg x (a' ++ b) e hx h7' (by rw [hdl]; exact hmax)
                    (by rw [hdeq]; exact hd) hne,
                  hdropk,
                  run_err cfg x a' e hx h7 hmax hd hne,
                  ih (a'.drop (HDR + declaredLen a' + CKW)) b (by simp; omega)]
                simp
              | ok f =>
                rw [hcons,
                  run_ok cfg x (a' ++ b) f hx h7' (by rw [hdl]; exact hmax)
                    (by rw [hdeq]; exact hd),
                  hdropk,
                  run_ok cfg x a' f hx h7 hmax hd,
                  ih (a'.drop (HDR + declaredLen a' + CKW)) b (by simp; omega)]
                simp
      · rw [hcons, run_cons_ne cfg x (a' ++ b) hx, run_cons_ne cfg x a' hx]
        exact ih a' b ha'

theorem run_leftover_cases (cfg : Config) :
    ∀ (n : Nat) (buf : List Nat), buf.length ≤ n →
      (run cfg buf).2 = [] ∨
        ∃ b rest, (run cfg buf).2 = b :: rest ∧ b = cfg.syncMarker ∧
          (rest.length < HDR ∨
            (¬ rest.length < HDR ∧ ¬ cfg.maxFrameSize < declaredLen rest ∧
              rest.length < HDR + declaredLen rest + CKW)) := by
  intro n
  induction n with
  | zero =>
    intro buf h
    have hb : buf = [] := List.eq_nil_of_length_eq_zero (Nat.le_zero.mp h)
    subst hb
    left
    rfl
  | succ n ih =>
    intro buf h
    cases buf with
    | nil => left; rfl
    | cons x a' =>
      have ha' : a'.length ≤ n := by simp at h; omega
      by_cases hx : x = cfg.syncMarker
      · by_cases h7 : a'.length < HDR
        · right
          exact ⟨x, a', by rw [run_wait_header cfg x a' hx h7], hx, Or.inl h7⟩
        · by_cases hmax : cfg.maxFrameSize < declaredLen a'
          · rw [run_over_limit cfg x a' hx h7 hmax]
            exact ih (a'.drop HDR) (by simp; omega)
          · by_cases hcomp : a'.length < HDR + declaredLen a' + CKW
            · have hdTF : decode a' = Except.error ErrKind.TruncatedFrame :=
                (decode_eq_truncated_iff a').mpr hcomp
              right
              exact ⟨x, a', by rw [run_wait_body cfg x a' hx h7 hmax hdTF],
                hx, Or.inr ⟨h7, hmax, hcomp⟩⟩
            · cases hd : decode a' with
              | error e =>
                have hne : e ≠ ErrKind.TruncatedFrame := by
                  intro he
                  subst he
                  exact hcomp ((decode_eq_truncated_iff a').mp hd)
                rw [run_err cfg x a' e hx h7 hmax hd hne]
                exact ih (a'.drop (HDR + declaredLen a' + CKW)) (by simp; omega)
              | ok f =>
                rw [run_ok cfg x a' f hx h7 hmax hd]
                exact ih (a'.drop (HDR + declaredLen a' + CKW)) (by simp; omega)
      · rw [run_cons_ne cfg x a' hx]
        exact ih a' ha'

theorem run_leftover_fix (cfg : Config) (buf : List Nat) :
    run cfg (run cfg buf).2 = ([], (run cfg buf).2) := by
  rcases run_leftover_cases cfg buf.length buf le_rfl with h | ⟨b, rest, heq, hb, hcase⟩
  · rw [h]; rfl
  · rw [heq]
    rcases hcase with h7 | ⟨h7, hmax, hcomp⟩
    · exact run_wait_header cfg b rest hb h7
    · exact run_wait_body cfg b rest hb h7 hmax
        ((decode_eq_truncated_iff rest).mpr hcomp)

theorem run_bound (cfg : Config) (buf : List Nat) :
    (run cfg buf).2.length ≤ cfg.maxFrameSize + 9 := by
  have hHDR : HDR = 7 := rfl
  have hCKW : CKW = 2 := rfl
  rcases run_leftover_cases cfg buf.length buf le_rfl with h | ⟨b, rest, heq, hb, hcase⟩
  · rw [h]; simp
  · rw [heq]
    rcases hcase with h7 | ⟨h7, hmax, hcomp⟩
    · simp
      omega
    · simp
      omega

theorem feedList_eq_run (cfg : Config) :
    ∀ (chunks : List (List Nat)) (st : List Nat), run cfg st = ([], st) →
      feedList cfg st chunks = run cfg (st ++ chunks.flatten) := by
  intro chunks
  induction chunks with
  | nil =>
    intro st hst
    simp only [feedList, List.flatten_nil, List.append_nil]
    exact hst.symm
  | cons c cs ih =>
    intro st hst
    have hfix : run cfg (run cfg (st ++ c)).2 = ([], (run cfg (st ++ c)).2) :=
      run_leftover_fix cfg (st ++ c)
    have hrec := ih (run cfg (st ++ c)).2 hfix
    simp only [feedList, feed]
    rw [hrec]
    have hflat : st ++ (c :: cs).flatten = (st ++ c) ++ cs.flatten := by
      simp [List.flatten_cons, List.append_assoc]
    rw [hflat, run_append cfg (st ++ c).length (st ++ c) cs.flatten le_rfl]

/-! ## Supporting lemmas: TLV field collections -/

theorem writeVarintF_ne_nil (fuel n : Nat) : writeVarintF fuel n ≠ [] := by
  cases fuel with
  | zero => simp [writeVarintF]
  | succ fuel =>
    by_cases hn : n < 128 <;> simp [writeVarintF, hn]

theorem writeVarint_ne_nil (n : Nat) : writeVarint n ≠ [] :=
  writeVarintF_ne_nil n n

theorem writeVarint_length_pos (n : Nat) : 1 ≤ (writeVarint n).length :=
  List.length_pos.mpr (writeVarint_ne_nil n)

theorem readWVal_round (v : WVal) (r : List Nat) (hv : validWVal v) :
    readWVal (typeByte v) (writeWVal v ++ r) = some (v, r) := by
  cases v with
  | vint n => simp [readWVal, typeByte, writeWVal, readVarint_writeVarint]
  | f32 n => simp [readWVal, typeByte, writeWVal, readU32_writeU32 n r hv]
  | f64 n => simp [readWVal, typeByte, writeWVal, readU64_writeU64 n r hv]
  | bytesV bs =>
    simp [readWVal, typeByte, writeWVal, readBytesField_writeBytesField]

theorem encodeFields_cons (p : Nat × WVal) (fs : List (Nat × WVal)) :
    encodeFields (p :: fs) = writeField p ++ encodeFields fs := by
  simp [encodeFields]

theorem decodeFieldsF_step (fuel tag : Nat) (v : WVal) (E : List Nat)
    (acc : List (Nat × WVal)) (hv : validWVal v) :
    decodeFieldsF (fuel + 1) (writeVarint tag ++ (typeByte v :: (writeWVal v ++ E))) acc =
      decodeFieldsF fuel E (insertLww acc (tag, v)) := by
  cases hw : writeVarint tag with
  | nil => exact absurd hw (writeVarint_ne_nil tag)
  | cons b0 tl =>
    have hshape : writeVarint tag ++ (typeByte v :: (writeWVal v ++ E)) =
        b0 :: (tl ++ (typeByte v :: (writeWVal v ++ E))) := by simp [hw]
    have hr : readVarint (b0 :: (tl ++ (typeByte v :: (writeWVal v ++ E)))) =
        some (tag, typeByte v :: (writeWVal v ++ E)) := by
      rw [← hshape]
      exact readVarint_writeVarint tag _
    rw [List.cons_append]
    simp only [decodeFieldsF, hr, readWVal_round v E hv]

theorem decodeFieldsF_round :
    ∀ (fs : List (Nat × WVal)) (fuel : Nat) (acc : List (Nat × WVal)),
      validFields fs → (encodeFields fs).length ≤ fuel →
      decodeFieldsF fuel (encodeFields fs) acc = some (fs.foldl insertLww acc) := by
  intro fs
  induction fs with
  | nil =>
    intro fuel acc _ _
    cases fuel <;> rfl
  | cons p fs ih =>
    intro fuel acc hvalid hfuel
    have hv : validWVal p.2 := hvalid p (List.mem_cons_self p fs)
    have hvs : validFields fs := fun q hq => hvalid q (List.mem_cons_of_mem p hq)
    rw [encodeFields_cons] at hfuel ⊢
    have hshape : writeField p ++ encodeFields fs =
        writeVarint p.1 ++ (typeByte p.2 :: (writeWVal p.2 ++ encodeFields fs)) := by
      simp [writeField]
    rw [hshape] at hfuel ⊢
    have hlen1 : 1 ≤ (writeVarint p.1).length := writeVarint_length_pos p.1
    have hlenall : (writeVarint p.1 ++
        (typeByte p.2 :: (writeWVal p.2 ++ encodeFields fs))).length =
        (writeVarint p.1).length + (1 + ((writeWVal p.2).length +
          (encodeFields fs).length)) := by
      simp
      omega
    cases fuel with
    | zero =>
      rw [hlenall] at hfuel
      omega
    | succ fuel =>
      rw [decodeFieldsF_step fuel p.1 p.2 (encodeFields fs) acc hv]
      rw [ih fuel (insertLww acc (p.1, p.2)) hvs
        (by rw [hlenall] at hfuel; omega)]
      rfl

/-! ## Supporting lemmas: single-bit corruption -/

theorem xor_pow_ne (b k : Nat) : b ^^^ 2 ^ k ≠ b := by
  intro h
  have h1 : b ^^^ (b ^^^ 2 ^ k) = b ^^^ b := by rw [h]
  rw [← Nat.xor_assoc, Nat.xor_self, Nat.zero_xor] at h1
  have h2 : 0 < 2 ^ k := Nat.pos_pow_of_pos k (by norm_num)
  omega

theorem xor_pow_lt (b k : Nat) (hb : b < 256) (hk : k < 8) :
    b ^^^ 2 ^ k < 256 := by
  have h1 : b < 2 ^ 8 := hb
  have h2 : 2 ^ k < 2 ^ 8 := Nat.pow_lt_pow_right (by norm_num) hk
  exact Nat.xor_lt_two_pow h1 h2

theorem body_getD_lt (f : Frame) (hf : reprFrame f) (j : Nat)
    (hj : j < 7 + f.payload.length) :
    (frameHeader f ++ f.payload).getD j 0 < 256 := by
  obtain ⟨hv, ht, hfl, hs, hl, hb⟩ := hf
  set x := (frameHeader f ++ f.payload).getD j 0 with hx
  have hmem : x ∈ frameHeader f ++ f.payload :=
    getD_mem_of_lt (frameHeader f ++ f.payload) j (by simp [frameHeader]; omega)
  rcases List.mem_append.mp hmem with hm | hm
  · simp [frameHeader] at hm
    rcases hm with h | h | h | h | h | h | h <;> omega
  · exact hb _ hm

theorem declaredLen_encode (f : Frame) (hl : f.payload.length < 65536) :
    declaredLen (encode f) = f.payload.length := by
  have h := declaredLen_encode_append f [] hl
  rwa [List.append_nil] at h

theorem bodyOf_eq_take (bytes : List Nat) :
    bodyOf bytes = bytes.take (HDR + declaredLen bytes) :=
  (List.take_add bytes HDR (declaredLen bytes)).symm

theorem flipBit_cons_succ (x : Nat) (l : List Nat) (j k : Nat) :
    flipBit (x :: l) (j + 1) k = x :: flipBit l j k := by
  simp [flipBit]

theorem flipBit_length (l : List Nat) (i k : Nat) :
    (flipBit l i k).length = l.length := by
  simp [flipBit]

theorem declaredLen_flip (f : Frame) (j k : Nat)
    (hl : f.payload.length < 65536) (hj5 : j ≠ 5) (hj6 : j ≠ 6) :
    declaredLen (flipBit (encode f) j k) = f.payload.length := by
  unfold flipBit declaredLen
  rw [getD_set_ne _ _ _ _ hj5, getD_set_ne _ _ _ _ hj6]
  exact declaredLen_encode f hl

theorem decode_flip (f : Frame) (j k : Nat) (hf : reprFrame f)
    (hj : j < 7 + f.payload.length) (hj5 : j ≠ 5) (hj6 : j ≠ 6) (hk : k < 8) :
    decode (flipBit (encode f) j k) = Except.error ErrKind.ChecksumMismatch := by
  have hrepr := hf
  obtain ⟨hv, ht, hfl, hs, hl, hb⟩ := hf
  have hHDR : HDR = 7 := rfl
  have hCKW : CKW = 2 := rfl
  set L := frameHeader f ++ f.payload with hL
  have hLlen : L.length = 7 + f.payload.length := by
    simp [hL, frameHeader]
    omega
  have hEsplit : encode f = L ++ writeU16 (checksum L) := by
    simp [encode, hL]
  set ck := checksum L with hck
  have hckS : ck = L.sum % 65536 := by rw [hck]; rfl
  have hcklt : ck < 65536 := by rw [hckS]; exact Nat.mod_lt _ (by norm_num)
  set old := (encode f).getD j 0 with hold
  set v := old ^^^ 2 ^ k with hv2
  have holdL : old = L.getD j 0 := by
    rw [hold, hEsplit]
    exact List.getD_append _ _ _ j (by omega)
  have holdlt : old < 256 := by
    rw [holdL]
    exact body_getD_lt f hrepr j hj
  have hvne : v ≠ old := xor_pow_ne old k
  have hvlt : v < 256 := xor_pow_lt old k holdlt hk
  have hCdef : flipBit (encode f) j k = (encode f).set j v := rfl
  have hClen : (flipBit (encode f) j k).length = 9 + f.payload.length := by
    rw [flipBit_length, encode_length]
    omega
  have hdlC : declaredLen (flipBit (encode f) j k) = f.payload.length :=
    declaredLen_flip f j k hl hj5 hj6
  have hfits : ¬ (flipBit (encode f) j k).length <
      HDR + declaredLen (flipBit (encode f) j k) + CKW := by
    rw [hClen, hdlC]
    omega
  have hbody : bodyOf (flipBit (encode f) j k) = L.set j v := by
    rw [bodyOf_eq_take, hdlC, hCdef, List.set_take, hEsplit,
      List.take_left' (by omega)]
  have hsum : (L.set j v).sum + old = L.sum + v := by
    rw [holdL]
    exact sum_set_getD L j v (by omega)
  have hstored : storedCk (flipBit (encode f) j k) = ck := by
    unfold storedCk
    rw [hdlC, hCdef, List.drop_set, if_pos (by omega), hEsplit,
      List.drop_left' (by omega)]
    simp [writeU16]
    omega
  have hnotok : ¬ checksumOk (flipBit (encode f) j k) := by
    unfold checksumOk
    rw [hbody, hstored]
    unfold checksum
    intro hcontra
    have hveq : v = old := by omega
    exact hvne hveq
  exact (decode_eq_mismatch_iff _).mpr ⟨by omega, hnotok⟩

theorem feedList_bound (cfg : Config) :
    ∀ (chunks : List (List Nat)) (st : List Nat),
      st.length ≤ cfg.maxFrameSize + 9 →
      (feedList cfg st chunks).2.length ≤ cfg.maxFrameSize + 9 := by
  intro chunks
  induction chunks with
  | nil => intro st h; exact h
  | cons c cs ih =>
    intro st h
    simp only [feedList, feed]
    exact ih _ (run_bound cfg (st ++ c))

/-! ## The claims -/

/-- C1: for every valid Frame within the configured size limits, decoding the
bytes produced by the Frame Codec's encode yields the Frame back, and every
Wire Types primitive codec (u8/u16/u32/u64 fixed-width including the IEEE-754
float bit-pattern carriers, varint, length-prefixed bytes) is round-trip
exact on representable values. -/
theorem spec_C1 (cfg : Config) (f : Frame) (x8 x16 x32 x64 vn : Nat)
    (bs r1 r2 r3 r4 r5 r6 : List Nat)
    (hf : validFrame cfg f) (h8 : x8 < 256) (h16 : x16 < 65536)
    (h32 : x32 < 4294967296) (h64 : x64 < 18446744073709551616) :
    decode (encode f) = Except.ok f ∧
      readU8 (writeU8 x8 ++ r1) = some (x8, r1) ∧
      readU16 (writeU16 x16 ++ r2) = some (x16, r2) ∧
      readU32 (writeU32 x32 ++ r3) = some (x32, r3) ∧
      readU64 (writeU64 x64 ++ r4) = some (x64, r4) ∧
      readVarint (writeVarint vn ++ r5) = some (vn, r5) ∧
      readBytesField (writeBytesField bs ++ r6) = some (bs, r6) := by
  obtain ⟨⟨hv, ht, hfl, hs, hl, hb⟩, hmax⟩ := hf
  refine ⟨?_, readU8_writeU8 x8 r1 h8, readU16_writeU16 x16 r2 h16,
    readU32_writeU32 x32 r3 h32, readU64_writeU64 x64 r4 h64,
    readVarint_writeVarint vn r5, readBytesField_writeBytesField bs r6⟩
  have h := decode_encode_append f [] hs hl
  rwa [List.append_nil] at h

theorem spec_C1_witness :
    validFrame cfg0 fA ∧
      (decode (encode fA) = Except.ok fA ∧
        readU8 (writeU8 200 ++ [9]) = some (200, [9]) ∧
        readU16 (writeU16 40000 ++ [9]) = some (40000, [9]) ∧
        readU32 (writeU32 3000000000 ++ [9]) = some (3000000000, [9]) ∧
        readU64 (writeU64 10000000000000000000 ++ [9]) =
          some (10000000000000000000, [9]) ∧
        readVarint (writeVarint 300 ++ [9]) = some (300, [9]) ∧
        readBytesField (writeBytesField [1, 2] ++ [9]) = some ([1, 2], [9])) :=
  ⟨by decide,
    spec_C1 cfg0 fA 200 40000 3000000000 10000000000000000000 300
      [1, 2] [9] [9] [9] [9] [9] [9]
      (by decide) (by decide) (by decide) (by decide) (by decide)⟩

/-- C2: feeding any sequence of chunks (any partition, including one byte per
chunk) to the Incremental Decoder from the initial state produces exactly the
same events, and the same final state, as feeding the whole stream in a
single call. -/
theorem spec_C2 (cfg : Config) (chunks : List (List Nat)) :
    feedList cfg [] chunks = run cfg chunks.flatten := by
  have h := feedList_eq_run cfg chunks [] rfl
  rwa [List.nil_append] at h

/-- C3: Frame Codec decode returns an assembled Frame exactly when the header
region plus the declared payload_length plus the checksum fit in the buffer
and the recomputed checksum equals the stored one; it fails with
TruncatedFrame exactly when the declared extent exceeds the available bytes,
and with ChecksumMismatch exactly when the extent fits but the checksum
disagrees (the Except type returns no partial Frame on error). -/
theorem spec_C3 (bytes : List Nat) :
    ((∃ f, decode bytes = Except.ok f) ↔
        (HDR + declaredLen bytes + CKW ≤ bytes.length ∧ checksumOk bytes)) ∧
      (decode bytes = Except.error ErrKind.TruncatedFrame ↔
        bytes.length < HDR + declaredLen bytes + CKW) ∧
      (decode bytes = Except.error ErrKind.ChecksumMismatch ↔
        (HDR + declaredLen bytes + CKW ≤ bytes.length ∧ ¬ checksumOk bytes)) := by
  refine ⟨⟨?_, ?_⟩, decode_eq_truncated_iff bytes, decode_eq_mismatch_iff bytes⟩
  · rintro ⟨f, hf⟩
    have h := (decode_eq_ok_iff bytes f).mp hf
    exact ⟨h.1, h.2.1⟩
  · intro h
    exact ⟨parsedFrame bytes,
      (decode_eq_ok_iff bytes (parsedFrame bytes)).mpr ⟨h.1, h.2, rfl⟩⟩

/-- C4: over any sequence of feed calls the decoder's accumulation buffer
never exceeds the configured maximum frame size plus the ten bytes of
sync/header/checksum overhead, and a complete header declaring an over-limit
payload_length immediately yields a TruncatedFrame resync event. -/
theorem spec_C4 (cfg : Config) (chunks : List (List Nat)) (rest : List Nat)
    (h7 : ¬ rest.length < HDR) (hover : cfg.maxFrameSize < declaredLen rest) :
    (feedList cfg [] chunks).2.length ≤ cfg.maxFrameSize + 10 ∧
      (run cfg (cfg.syncMarker :: rest)).1.head? =
        some (Event.error ErrKind.TruncatedFrame) := by
  constructor
  · have h := feedList_bound cfg chunks [] (by simp)
    omega
  · rw [run_over_limit cfg cfg.syncMarker rest rfl h7 hover]
    rfl

theorem spec_C4_witness :
    ¬ ([1, 5, 0, 42, 0, 255, 255] : List Nat).length < HDR ∧
      cfg0.maxFrameSize < declaredLen [1, 5, 0, 42, 0, 255, 255] ∧
      ((feedList cfg0 [] [[170, 1], [5]]).2.length ≤ cfg0.maxFrameSize + 10 ∧
        (run cfg0 (cfg0.syncMarker :: [1, 5, 0, 42, 0, 255, 255])).1.head? =
          some (Event.error ErrKind.TruncatedFrame)) :=
  ⟨by decide, by decide,
    spec_C4 cfg0 [[170, 1], [5]] [1, 5, 0, 42, 0, 255, 255]
      (by decide) (by decide)⟩

/-- C5 counterexample: flipping bit 7 of wire offset 7 — the high byte of the
payload_length field, which lies in the header and is not the sync marker —
of a valid encoded frame and feeding it followed by a second valid frame does
NOT yield a ChecksumMismatch followed by the second frame, as the claim
requires for every single-bit header/payload flip; it yields a TruncatedFrame
resync event (the corrupted declared length exceeds the configured maximum)
followed by the second frame. -/
theorem spec_C5_cex :
    run cfg0 (flipBit (encodeWire cfg0 fA) 7 7 ++ encodeWire cfg0 fB) ≠
        ([Event.error ErrKind.ChecksumMismatch, Event.frame fB], []) ∧
      run cfg0 (flipBit (encodeWire cfg0 fA) 7 7 ++ encodeWire cfg0 fB) =
        ([Event.error ErrKind.TruncatedFrame, Event.frame fB], []) := by
  decide

/-- C5 (amended): flipping any single bit of a valid encoded frame's header
or payload other than the sync marker and the payload_length field (wire
offsets 6 and 7), and feeding the corrupted bytes followed by a second valid
encoded frame whose version is accepted, yields exactly one ChecksumMismatch
event followed by exactly one Frame event for the second frame. -/
theorem spec_C5 (cfg : Config) (f1 f2 : Frame) (i k : Nat)
    (h1 : validFrame cfg f1) (h2 : validFrame cfg f2)
    (hv2 : f2.version ∈ cfg.acceptedVersions) (hk : k < 8)
    (hi1 : 1 ≤ i) (hi2 : i ≤ 7 + f1.payload.length) (hi6 : i ≠ 6) (hi7 : i ≠ 7) :
    run cfg (flipBit (encodeWire cfg f1) i k ++ encodeWire cfg f2) =
      ([Event.error ErrKind.ChecksumMismatch, Event.frame f2], []) := by
  obtain ⟨j, rfl⟩ : ∃ j, i = j + 1 := ⟨i - 1, by omega⟩
  have hHDR : HDR = 7 := rfl
  have hCKW : CKW = 2 := rfl
  obtain ⟨⟨hv1, ht1, hfl1, hs1, hl1, hb1⟩, hmax1⟩ := h1
  have hrepr1 : reprFrame f1 := ⟨hv1, ht1, hfl1, hs1, hl1, hb1⟩
  have hflip : flipBit (encodeWire cfg f1) (j + 1) k =
      cfg.syncMarker :: flipBit (encode f1) j k := by
    calc flipBit (encodeWire cfg f1) (j + 1) k
        = flipBit (cfg.syncMarker :: encode f1) (j + 1) k := rfl
      _ = cfg.syncMarker :: flipBit (encode f1) j k := flipBit_cons_succ _ _ _ _
  rw [hflip, List.cons_append]
  set C := flipBit (encode f1) j k with hC
  have hClen : C.length = 9 + f1.payload.length := by
    rw [hC, flipBit_length, encode_length]
    omega
  have hdlC : declaredLen C = f1.payload.length := by
    rw [hC]
    exact declaredLen_flip f1 j k hl1 (by omega) (by omega)
  have hdecC : decode C = Except.error ErrKind.ChecksumMismatch := by
    rw [hC]
    exact decode_flip f1 j k hrepr1 (by omega) (by omega) (by omega) hk
  have h7 : ¬ (C ++ encodeWire cfg f2).length < HDR := by
    simp only [List.length_append, hClen]
    omega
  have hdl : declaredLen (C ++ encodeWire cfg f2) = f1.payload.length := by
    rw [declaredLen_append_left C _ (by omega), hdlC]
  have hmaxc : ¬ cfg.maxFrameSize < declaredLen (C ++ encodeWire cfg f2) := by
    rw [hdl]
    omega
  have hdec : decode (C ++ encodeWire cfg f2) =
      Except.error ErrKind.ChecksumMismatch := by
    rw [decode_append_left C _ (by rw [hdlC, hClen]; omega)]
    exact hdecC
  rw [run_err cfg cfg.syncMarker (C ++ encodeWire cfg f2)
    ErrKind.ChecksumMismatch rfl h7 hmaxc hdec (by decide)]
  have hdropk : (C ++ encodeWire cfg f2).drop
      (HDR + declaredLen (C ++ encodeWire cfg f2) + CKW) = encodeWire cfg f2 := by
    rw [hdl]
    exact List.drop_left' (by omega)
  rw [hdropk]
  have hrunW2 : run cfg (encodeWire cfg f2) = ([Event.frame f2], []) := by
    have h := run_wire_frame cfg f2 [] h2
    rw [List.append_nil] at h
    rw [h, if_pos hv2, run_nil]
  rw [hrunW2]

theorem spec_C5_witness :
    validFrame cfg0 fA ∧ validFrame cfg0 fB ∧
      fB.version ∈ cfg0.acceptedVersions ∧
      run cfg0 (flipBit (encodeWire cfg0 fA) 9 0 ++ encodeWire cfg0 fB) =
        ([Event.error ErrKind.ChecksumMismatch, Event.frame fB], []) :=
  ⟨by decide, by decide, by decide,
    spec_C5 cfg0 fA fB 9 0 (by decide) (by decide) (by decide) (by decide)
      (by decide) (by decide) (by decide) (by decide)⟩

/-- C6: a structurally valid frame whose version is not accepted by the build
is surfaced as a single UnsupportedVersion event (not ChecksumMismatch), and
the decoder skips exactly the frame's recorded length and continues with the
following bytes as if decoding them afresh, rather than resynchronizing. -/
theorem spec_C6 (cfg : Config) (f : Frame) (rest : List Nat)
    (hf : validFrame cfg f) (hv : f.version ∉ cfg.acceptedVersions) :
    run cfg (encodeWire cfg f ++ rest) =
      (Event.error ErrKind.UnsupportedVersion :: (run cfg rest).1,
        (run cfg rest).2) := by
  rw [run_wire_frame cfg f rest hf, if_neg hv]

theorem spec_C6_witness :
    validFrame cfg0 fV ∧ fV.version ∉ cfg0.acceptedVersions ∧
      run cfg0 (encodeWire cfg0 fV ++ encodeWire cfg0 fB) =
        ([Event.error ErrKind.UnsupportedVersion, Event.frame fB], []) :=
  ⟨by decide, by decide,
    (spec_C6 cfg0 fV (encodeWire cfg0 fB) (by decide) (by decide)).trans
      (by decide)⟩

/-- C7: decoding an encoded field collection builds a tag-to-value mapping
equal to the mapping obtained by inserting the same (tag, value) pairs
directly in declaration order, a duplicate tag's later value overwriting the
earlier one (last-write-wins). -/
theorem spec_C7 (fs : List (Nat × WVal)) (h : validFields fs) :
    decodeFields (encodeFields fs) = some (buildMap fs) := by
  unfold decodeFields buildMap
  exact decodeFieldsF_round fs (encodeFields fs).length [] h le_rfl

theorem spec_C7_witness :
    validFields [(1, WVal.vint 300), (2, WVal.bytesV [7, 8]), (1, WVal.f32 70000)] ∧
      decodeFields (encodeFields
          [(1, WVal.vint 300), (2, WVal.bytesV [7, 8]), (1, WVal.f32 70000)]) =
        some (buildMap
          [(1, WVal.vint 300), (2, WVal.bytesV [7, 8]), (1, WVal.f32 70000)]) :=
  ⟨by decide, spec_C7 _ (by decide)⟩

/-- C8: after config_options runs, the option set contains fPIC iff the
target OS is not Windows, for any option set that has fPIC (as the default
options do, with default True); on a non-Windows OS the options are left
unchanged. -/
theorem conan_C8 (os : OS) (o : LimpOptions) (hfpic : o.fPIC.isSome = true) :
    ((config_options os o).fPIC.isSome = true ↔ os ≠ OS.Windows) ∧
      (os ≠ OS.Windows → config_options os o = o) ∧
      default_options.fPIC = some true := by
  refine ⟨?_, ?_, rfl⟩
  · by_cases hw : os = OS.Windows
    · subst hw
      simp [config_options]
    · simp [config_options, hw, hfpic]
  · intro hw
    simp [config_options, hw]

theorem conan_C8_witness :
    default_options.fPIC.isSome = true ∧
      (((config_options OS.Linux default_options).fPIC.isSome = true ↔
          OS.Linux ≠ OS.Windows) ∧
        (OS.Linux ≠ OS.Windows →
          config_options OS.Linux default_options = default_options) ∧
        default_options.fPIC = some true) :=
  ⟨by decide, conan_C8 OS.Linux default_options (by decide)⟩

/-- C9: the requirements step declares zeromq/4.3.5 and cppzmq/4.10.0 exactly
when with_zmq is True (its default), and declares no dependency at all when
with_zmq is False. -/
theorem conan_C9 (o : LimpOptions) :
    (requirements o = ["zeromq/4.3.5", "cppzmq/4.10.0"] ↔ o.with_zmq = true) ∧
      (requirements o = [] ↔ o.with_zmq = false) ∧
      default_options.with_zmq = true := by
  refine ⟨?_, ?_, rfl⟩
  · cases hz : o.with_zmq <;> simp [requirements, hz]
  · cases hz : o.with_zmq <;> simp [requirements, hz]

/-- C10: for every option set, generate writes LIMP_BUILD_EXAMPLES and
LIMP_BUILD_TESTS as False unconditionally and LIMP_BUILD_ZMQ equal to the
with_zmq option. -/
theorem conan_C10 (o : LimpOptions) :
    (generate o).LIMP_BUILD_EXAMPLES = false ∧
      (generate o).LIMP_BUILD_TESTS = false ∧
      (generate o).LIMP_BUILD_ZMQ = o.with_zmq :=
  ⟨rfl, rfl, rfl⟩

end LimpSpec
